import Mathlib

/-!
Verification of the request-scheduling and resilience core of the
Ephemeral Collector repository (src/services/geminiService.ts): the
priority-ordered rate-limited `RequestQueue`, the `retryWithBackoff`
exponential-backoff wrapper, and their callers' error policies.

The embedding is shallow: the JavaScript values and control flow of the
source are translated into executable Lean definitions.  Machine time
(`Date.now()`, an integer count of milliseconds) is an `Int`; the
fractional delays produced by `Math.random() * 1000` live in `ℚ`.
-/

/-! ## JavaScript error values

`retryWithBackoff` probes a thrown error for several possible shapes:
`error?.status || error?.response?.status || error?.code || error?.error?.code`
and `error?.message || error?.error?.message || JSON.stringify(error)`.
A probed field holds either a number or a string (`JsVal`), or is absent
(`Option`).  `JsErr` records exactly the fields the source inspects;
`stringified` stands for `JSON.stringify(error)`, which is always a string. -/

/-- A JavaScript value appearing in an error's status/code field: either a
number (e.g. `429`) or a string (e.g. `"RESOURCE_EXHAUSTED"`). -/
inductive JsVal : Type where
  | vnum (n : Int)
  | vstr (s : String)
deriving DecidableEq, Repr

/-- JavaScript truthiness for the values `||` can see here: the number 0 and
the empty string are falsy, everything else is truthy. -/
def JsVal.truthy : JsVal → Bool
  | .vnum n => n != 0
  | .vstr s => s != ""

/-- `a || b` on possibly-absent JavaScript values: the left value if it is
present and truthy, otherwise the right. -/
def jsOr (a b : Option JsVal) : Option JsVal :=
  match a with
  | some v => if v.truthy then some v else b
  | none => b

/-- `a || b` where the right operand is a plain string (the
`JSON.stringify(error)` fallback, which is always a string). -/
def strOrStr (a : Option String) (b : String) : String :=
  match a with
  | some s => if s ≠ "" then s else b
  | none => b

/-- The error shapes `retryWithBackoff` inspects: `status`,
`response?.status`, `code`, `error?.code`, `message`, `error?.message`,
and the `JSON.stringify(error)` rendering. -/
structure JsErr : Type where
  status : Option JsVal := none
  responseStatus : Option JsVal := none
  code : Option JsVal := none
  errorCode : Option JsVal := none
  message : Option String := none
  errorMessage : Option String := none
  stringified : String := "null"
deriving DecidableEq, Repr

/-- `const status = error?.status || error?.response?.status || error?.code
|| error?.error?.code` (geminiService.ts:227). -/
def errStatus (e : JsErr) : Option JsVal :=
  jsOr e.status (jsOr e.responseStatus (jsOr e.code e.errorCode))

/-- `const message = error?.message || error?.error?.message ||
JSON.stringify(error)` (geminiService.ts:228). -/
def errMessage (e : JsErr) : String :=
  strOrStr e.message (strOrStr e.errorMessage e.stringified)

/-- `pat` begins the character list `cs`. -/
def leadsWith : List Char → List Char → Bool
  | [], _ => true
  | _ :: _, [] => false
  | p :: ps, c :: cs => (p == c) && leadsWith ps cs

/-- `pat` occurs as a contiguous run somewhere in the character list. -/
def occursIn (pat : List Char) : List Char → Bool
  | [] => leadsWith pat []
  | c :: cs => leadsWith pat (c :: cs) || occursIn pat cs

/-- `s.includes(pat)`: the pattern occurs contiguously in `s`. -/
def strContains (s pat : String) : Bool :=
  occursIn pat.toList s.toList

/-- The rate-limit classification of geminiService.ts:230-237:
`status === 429 || status === 'RESOURCE_EXHAUSTED' || message.includes('429')
|| message.includes('quota') || message.includes('RESOURCE_EXHAUSTED')`
(the `typeof message === 'string'` guard always holds here since the
modelled message is a string). -/
def isRateLimit (e : JsErr) : Bool :=
  decide (errStatus e = some (JsVal.vnum 429)) ||
  decide (errStatus e = some (JsVal.vstr "RESOURCE_EXHAUSTED")) ||
  (strContains (errMessage e) "429" ||
   strContains (errMessage e) "quota" ||
   strContains (errMessage e) "RESOURCE_EXHAUSTED")

/-! ## retryWithBackoff -/

/-- The message of the synthesized exhaustion error
(geminiService.ts:249). -/
def exhaustedMessage : String :=
  "Gemini traffic is high. Please wait a moment and try again."

/-- The settlement of a `retryWithBackoff` invocation: the wrapped
function's success value, its original (non-retryable) error, or the
synthesized retry-exhaustion `Error`. -/
inductive RetryResult (α : Type) : Type where
  | ok (v : α)
  | errOriginal (e : JsErr)
  | exhausted (msg : String)
deriving DecidableEq, Repr

/-- The loop of `retryWithBackoff` (geminiService.ts:218-257).  `fn k` is
the outcome of the k-th call of `fn` (0-based), `j k` the jitter
`Math.random() * 1000` drawn after the k-th call fails.  `attempt` is the
number of calls already made; `left` is the remaining retry budget, kept
equal to `retries - attempt` so that the source's `attempt <= retries`
test (after `attempt++`) becomes `left > 0`.  The result carries the
settlement, the total number of calls of `fn`, and the list of backoff
delays waited, in order. -/
def retryGo {α : Type} (fn : Nat → Except JsErr α) (initialDelay : ℚ)
    (j : Nat → ℚ) : Nat → Nat → RetryResult α × Nat × List ℚ
  | attempt, left =>
    match fn attempt with
    | .ok v => (.ok v, attempt + 1, [])
    | .error e =>
      if isRateLimit e then
        match left with
        | l + 1 =>
          let rest := retryGo fn initialDelay j (attempt + 1) l
          (rest.1, rest.2.1, (initialDelay * 2 ^ attempt + j attempt) :: rest.2.2)
        | 0 => (.exhausted exhaustedMessage, attempt + 1, [])
      else (.errOriginal e, attempt + 1, [])

/-- `retryWithBackoff(fn, retries, initialDelay)` of geminiService.ts:218:
start with `attempt = 0` and the full retry budget. -/
def retryWithBackoff {α : Type} (fn : Nat → Except JsErr α) (retries : Nat)
    (initialDelay : ℚ) (j : Nat → ℚ) : RetryResult α × Nat × List ℚ :=
  retryGo fn initialDelay j 0 retries

theorem retryGo_eq_ok {α : Type} {fn : Nat → Except JsErr α} {d : ℚ}
    {j : Nat → ℚ} {attempt left : Nat} {v : α} (hfn : fn attempt = Except.ok v) :
    retryGo fn d j attempt left = (.ok v, attempt + 1, []) := by
  cases left <;> simp [retryGo, hfn]

theorem retryGo_eq_noRL {α : Type} {fn : Nat → Except JsErr α} {d : ℚ}
    {j : Nat → ℚ} {attempt left : Nat} {e : JsErr}
    (hfn : fn attempt = Except.error e) (hrl : isRateLimit e = false) :
    retryGo fn d j attempt left = (.errOriginal e, attempt + 1, []) := by
  cases left <;> simp [retryGo, hfn, hrl]

theorem retryGo_eq_rlZero {α : Type} {fn : Nat → Except JsErr α} {d : ℚ}
    {j : Nat → ℚ} {attempt : Nat} {e : JsErr}
    (hfn : fn attempt = Except.error e) (hrl : isRateLimit e = true) :
    retryGo fn d j attempt 0 = (.exhausted exhaustedMessage, attempt + 1, []) := by
  simp [retryGo, hfn, hrl]

theorem retryGo_eq_rlSucc {α : Type} {fn : Nat → Except JsErr α} {d : ℚ}
    {j : Nat → ℚ} {attempt l : Nat} {e : JsErr}
    (hfn : fn attempt = Except.error e) (hrl : isRateLimit e = true) :
    retryGo fn d j attempt (l + 1) =
      ((retryGo fn d j (attempt + 1) l).1, (retryGo fn d j (attempt + 1) l).2.1,
        (d * 2 ^ attempt + j attempt) :: (retryGo fn d j (attempt + 1) l).2.2) := by
  simp [retryGo, hfn, hrl]

theorem retryGo_calls_ge {α : Type} (fn : Nat → Except JsErr α) (d : ℚ)
    (j : Nat → ℚ) : ∀ left attempt, attempt + 1 ≤ (retryGo fn d j attempt left).2.1 := by
  intro left
  induction left with
  | zero =>
    intro attempt
    simp only [retryGo]
    cases fn attempt with
    | ok v => simp
    | error e =>
      by_cases h : isRateLimit e <;> simp [h]
  | succ l ih =>
    intro attempt
    simp only [retryGo]
    cases fn attempt with
    | ok v => simp
    | error e =>
      by_cases h : isRateLimit e
      · simpa [h] using Nat.le_trans (Nat.le_succ _) (ih (attempt + 1))
      · simp [h]

theorem retryGo_allRateLimited {α : Type} (fn : Nat → Except JsErr α) (d : ℚ)
    (j : Nat → ℚ) :
    ∀ left attempt,
      (∀ k, attempt ≤ k → k ≤ attempt + left →
        ∃ e, fn k = Except.error e ∧ isRateLimit e = true) →
      (retryGo fn d j attempt left).1 = RetryResult.exhausted exhaustedMessage ∧
      (retryGo fn d j attempt left).2.1 = attempt + left + 1 := by
  intro left
  induction left with
  | zero =>
    intro attempt h
    obtain ⟨e, he, hrl⟩ := h attempt le_rfl (by omega)
    simp [retryGo, he, hrl]
  | succ l ih =>
    intro attempt h
    obtain ⟨e, he, hrl⟩ := h attempt le_rfl (by omega)
    have hrec := ih (attempt + 1) (fun k hk1 hk2 => h k (by omega) (by omega))
    simp only [retryGo, he, hrl, if_pos]
    exact ⟨hrec.1, by omega⟩

theorem retryGo_delay_formula {α : Type} (fn : Nat → Except JsErr α) (d : ℚ)
    (j : Nat → ℚ) :
    ∀ left attempt i, i < ((retryGo fn d j attempt left).2.2).length →
      ((retryGo fn d j attempt left).2.2).get? i =
        some (d * 2 ^ (attempt + i) + j (attempt + i)) := by
  intro left
  induction left with
  | zero =>
    intro attempt i h
    exfalso
    cases hfn : fn attempt with
    | ok v => rw [retryGo_eq_ok hfn] at h; simp at h
    | error e =>
      cases hrl : isRateLimit e
      · rw [retryGo_eq_noRL hfn hrl] at h; simp at h
      · rw [retryGo_eq_rlZero hfn hrl] at h; simp at h
  | succ l ih =>
    intro attempt i h
    cases hfn : fn attempt with
    | ok v => exfalso; rw [retryGo_eq_ok hfn] at h; simp at h
    | error e =>
      cases hrl : isRateLimit e
      · exfalso; rw [retryGo_eq_noRL hfn hrl] at h; simp at h
      · rw [retryGo_eq_rlSucc hfn hrl] at h ⊢
        cases i with
        | zero => simp
        | succ i' =>
          have h' : i' < ((retryGo fn d j (attempt + 1) l).2.2).length := by
            simpa using h
          have hih := ih (attempt + 1) i' h'
          have hidx : attempt + 1 + i' = attempt + (i' + 1) := by omega
          rw [hidx] at hih
          simpa using hih

/-! ## Claim theorems about retryWithBackoff -/

/-- C3: for every function that fails with a rate-limit-classified error on
every invocation, `retryWithBackoff fn 2 d` invokes `fn` exactly 3 times
(1 initial attempt plus 2 retries) and then rejects with the distinguished
exhaustion error, not with the underlying rate-limit error. -/
theorem retry_exhaustion {α : Type} (fn : Nat → Except JsErr α) (d : ℚ)
    (j : Nat → ℚ)
    (h : ∀ n, ∃ e, fn n = Except.error e ∧ isRateLimit e = true) :
    (retryWithBackoff fn 2 d j).1 = RetryResult.exhausted exhaustedMessage ∧
    (retryWithBackoff fn 2 d j).2.1 = 3 := by
  have hall := retryGo_allRateLimited fn d j 2 0 (fun k _ _ => h k)
  exact ⟨hall.1, hall.2⟩

/-- An error carrying the numeric status 429, as the Gemini transport
produces on rate limiting. -/
def err429 : JsErr := { status := some (JsVal.vnum 429) }

theorem retry_exhaustion_witness :
    (retryWithBackoff (fun _ => Except.error err429 : Nat → Except JsErr Nat)
        2 2000 (fun _ => (0 : ℚ))).1 = RetryResult.exhausted exhaustedMessage ∧
    (retryWithBackoff (fun _ => Except.error err429 : Nat → Except JsErr Nat)
        2 2000 (fun _ => (0 : ℚ))).2.1 = 3 :=
  retry_exhaustion _ 2000 (fun _ => (0 : ℚ))
    (fun _ => ⟨err429, rfl, by decide⟩)

/-- C7: on every retryable failure with budget remaining, the delay waited
before the next attempt is `initialDelay * 2 ^ (n - 1)` plus the jitter drawn
for that attempt; with jitter in `[0, 1000)` each delay lies in
`[d * 2 ^ (n - 1), d * 2 ^ (n - 1) + 1000)`, and the non-jitter component
exactly doubles from each attempt to the next.  (Delays are indexed 0-based
here: index `i` is attempt `n = i + 1`.) -/
theorem backoff_growth {α : Type} (fn : Nat → Except JsErr α) (retries : Nat)
    (d : ℚ) (j : Nat → ℚ) (hj : ∀ n, 0 ≤ j n ∧ j n < 1000) :
    (∀ i, i < ((retryWithBackoff fn retries d j).2.2).length →
      ((retryWithBackoff fn retries d j).2.2).get? i = some (d * 2 ^ i + j i)) ∧
    (∀ i x, ((retryWithBackoff fn retries d j).2.2).get? i = some x →
      d * 2 ^ i ≤ x ∧ x < d * 2 ^ i + 1000) ∧
    (∀ i x y, ((retryWithBackoff fn retries d j).2.2).get? i = some x →
      ((retryWithBackoff fn retries d j).2.2).get? (i + 1) = some y →
      y - j (i + 1) = 2 * (x - j i)) := by
  have hform : ∀ i, i < ((retryWithBackoff fn retries d j).2.2).length →
      ((retryWithBackoff fn retries d j).2.2).get? i = some (d * 2 ^ i + j i) := by
    intro i hi
    simpa using retryGo_delay_formula fn d j retries 0 i hi
  have hval : ∀ i x, ((retryWithBackoff fn retries d j).2.2).get? i = some x →
      x = d * 2 ^ i + j i := by
    intro i x hx
    have hi : i < ((retryWithBackoff fn retries d j).2.2).length :=
      List.get?_eq_some.mp hx |>.1
    have := hform i hi
    rw [hx] at this
    exact Option.some_inj.mp this
  refine ⟨hform, ?_, ?_⟩
  · intro i x hx
    rw [hval i x hx]
    have := hj i
    constructor <;> linarith [this.1, this.2]
  · intro i x y hx hy
    rw [hval i x hx, hval (i + 1) y hy]
    ring

theorem backoff_growth_witness :
    ((retryWithBackoff (fun n => if n < 2 then Except.error err429 else Except.ok 7)
        2 2000 (fun _ => (5 : ℚ))).2.2).get? 0 = some (2000 * 2 ^ 0 + 5) :=
  (backoff_growth _ 2 2000 (fun _ => (5 : ℚ))
      (by intro n; show (0 : ℚ) ≤ 5 ∧ (5 : ℚ) < 1000; exact ⟨by decide, by decide⟩)).1
    0 (by decide)

/-- C10: when `retryWithBackoff` exhausts its retry budget the original
rate-limit error is discarded and replaced by the synthesized exhaustion
error; in particular for `maxRetries = 0` a rate-limit-classified failure on
the first attempt immediately rejects with the exhaustion message, with no
delay waited and the original error never reaching the caller. -/
theorem retry_zero_budget {α : Type} (fn : Nat → Except JsErr α) (e : JsErr)
    (d : ℚ) (j : Nat → ℚ)
    (h0 : fn 0 = Except.error e) (hrl : isRateLimit e = true) :
    retryWithBackoff fn 0 d j = (RetryResult.exhausted exhaustedMessage, 1, []) ∧
    ∀ retries, (∀ k, k ≤ retries → ∃ e2, fn k = Except.error e2 ∧ isRateLimit e2 = true) →
      (retryWithBackoff fn retries d j).1 = RetryResult.exhausted exhaustedMessage ∧
      (retryWithBackoff fn retries d j).2.1 = retries + 1 := by
  constructor
  · exact retryGo_eq_rlZero h0 hrl
  · intro retries h
    have hall := retryGo_allRateLimited fn d j retries 0 (fun k _ hk2 => h k (by omega))
    exact ⟨hall.1, by simpa using hall.2⟩

theorem retry_zero_budget_witness :
    retryWithBackoff (fun _ => Except.error err429 : Nat → Except JsErr Nat)
        0 2000 (fun _ => (0 : ℚ)) =
      (RetryResult.exhausted exhaustedMessage, 1, []) :=
  (retry_zero_budget _ err429 2000 (fun _ => (0 : ℚ)) rfl (by decide)).1

/-! ## C4: retry classification -/

/-- Modelled from the claim's words (C4), for refinement comparison with the
code's `isRateLimit`: retryable iff the failure carries a 429 status code in
any of the probed fields (direct status, nested response status, code, nested
error code), or carries a RESOURCE_EXHAUSTED status token in any of them, or
its message contains a rate-limit/quota marker. -/
def claimRetryable (e : JsErr) : Bool :=
  decide (e.status = some (JsVal.vnum 429)) ||
  decide (e.responseStatus = some (JsVal.vnum 429)) ||
  decide (e.code = some (JsVal.vnum 429)) ||
  decide (e.errorCode = some (JsVal.vnum 429)) ||
  decide (e.status = some (JsVal.vstr "RESOURCE_EXHAUSTED")) ||
  decide (e.responseStatus = some (JsVal.vstr "RESOURCE_EXHAUSTED")) ||
  decide (e.code = some (JsVal.vstr "RESOURCE_EXHAUSTED")) ||
  decide (e.errorCode = some (JsVal.vstr "RESOURCE_EXHAUSTED")) ||
  (strContains (errMessage e) "429" ||
   strContains (errMessage e) "quota" ||
   strContains (errMessage e) "RESOURCE_EXHAUSTED")

/-- An error carrying a truthy non-429 direct status (400) that shadows a
429 carried in the nested error-code field, with a marker-free message. -/
def errShadowed : JsErr :=
  { status := some (JsVal.vnum 400), errorCode := some (JsVal.vnum 429),
    message := some "Bad Request" }

/-- C4 counterexample: `errShadowed` carries a 429-equivalent status code in
the nested error-code field, so the claim as stated classifies it retryable;
but the code takes only the first truthy field of the `||` chain — the direct
status 400 — finds no message marker, does not retry, and propagates the
original error after one attempt with no delay. -/
theorem retry_classification_cex :
    claimRetryable errShadowed = true ∧ isRateLimit errShadowed = false ∧
    retryWithBackoff (fun _ => Except.error errShadowed : Nat → Except JsErr Nat)
        2 2000 (fun _ => (0 : ℚ)) =
      (RetryResult.errOriginal errShadowed, 1, []) := by
  refine ⟨by decide, by decide, ?_⟩
  exact @retryGo_eq_noRL Nat (fun _ => Except.error errShadowed) 2000
    (fun _ => (0 : ℚ)) 0 2 errShadowed rfl (by decide)

/-- C4 (amended): the code classifies a failure as retryable iff the first
truthy value of the chain status / response-status / code / nested error code
equals 429 or RESOURCE_EXHAUSTED, or the effective message (first truthy of
message and nested error message, else the JSON rendering) contains a
rate-limit/quota marker; a failure whose effective status is 400 with no such
marker is not retried and is propagated unchanged after the first attempt,
with no delay; a failure classified retryable is attempted again whenever
retry budget remains. -/
theorem retry_classification :
    (∀ e : JsErr, isRateLimit e = true ↔
      (errStatus e = some (JsVal.vnum 429) ∨
       errStatus e = some (JsVal.vstr "RESOURCE_EXHAUSTED") ∨
       strContains (errMessage e) "429" = true ∨
       strContains (errMessage e) "quota" = true ∨
       strContains (errMessage e) "RESOURCE_EXHAUSTED" = true)) ∧
    (∀ (α : Type) (fn : Nat → Except JsErr α) (e : JsErr) (retries : Nat)
       (d : ℚ) (j : Nat → ℚ),
      fn 0 = Except.error e → isRateLimit e = false →
      retryWithBackoff fn retries d j = (RetryResult.errOriginal e, 1, [])) ∧
    (∀ (α : Type) (fn : Nat → Except JsErr α) (e : JsErr) (retries : Nat)
       (d : ℚ) (j : Nat → ℚ),
      fn 0 = Except.error e → isRateLimit e = true → 1 ≤ retries →
      2 ≤ (retryWithBackoff fn retries d j).2.1) := by
  refine ⟨?_, ?_, ?_⟩
  · intro e
    simp [isRateLimit, Bool.or_eq_true, decide_eq_true_iff, or_assoc]
  · intro α fn e retries d j h0 hrl
    exact retryGo_eq_noRL h0 hrl
  · intro α fn e retries d j h0 hrl hr
    obtain ⟨l, rfl⟩ : ∃ l, retries = l + 1 := ⟨retries - 1, by omega⟩
    have hstep := @retryGo_eq_rlSucc α fn d j 0 l e h0 hrl
    have hge := retryGo_calls_ge fn d j l 1
    calc 2 ≤ (retryGo fn d j 1 l).2.1 := hge
    _ = (retryWithBackoff fn (l + 1) d j).2.1 := by
        rw [retryWithBackoff, hstep]

/-- An error carrying status 400 and a marker-free message. -/
def err400 : JsErr :=
  { status := some (JsVal.vnum 400), message := some "Bad Request" }

theorem retry_classification_witness :
    retryWithBackoff (fun _ => Except.error err400 : Nat → Except JsErr Nat)
        2 2000 (fun _ => (0 : ℚ)) = (RetryResult.errOriginal err400, 1, []) ∧
    2 ≤ (retryWithBackoff (fun _ => Except.error err429 : Nat → Except JsErr Nat)
        2 2000 (fun _ => (0 : ℚ))).2.1 :=
  ⟨retry_classification.2.1 Nat _ err400 2 2000 _ rfl (by decide),
   retry_classification.2.2 Nat _ err429 2 2000 _ rfl (by decide) (by decide)⟩

/-! ## C9: analyzeWord's graceful fallback -/

/-- The word-analysis payload (types.ts): a poetic definition and its
sensory nuance. -/
structure WordAnalysis : Type where
  definition : String
  nuance : String
deriving DecidableEq, Repr

/-- The fixed fallback returned by `analyzeWord`'s inner catch
(geminiService.ts:338-341). -/
def wordFallback : WordAnalysis :=
  { definition := "时间的碎片，封存于文字之中。", nuance := "意义如阴影般变幻。" }

/-- One attempt of the task `analyzeWord` hands to `retryWithBackoff`
(geminiService.ts:306-342): the transport call may fail (`call = error`),
return no text (`ok none`, making the body throw "No analysis generated"),
or return text that `JSON.parse` accepts or rejects.  Every failure path runs
through the inner catch, which returns the fixed fallback instead of
rethrowing. -/
def analyzeWordTask (call : Except JsErr (Option String))
    (parse : String → Except JsErr WordAnalysis) : Except JsErr WordAnalysis :=
  match call with
  | .error _ => .ok wordFallback
  | .ok none => .ok wordFallback
  | .ok (some t) =>
    match parse t with
    | .error _ => .ok wordFallback
    | .ok w => .ok w

/-- C9: the future returned by `analyzeWord` never rejects — every failure of
the transport call, including a rate-limit-classified one on the very first
attempt, is caught inside the task before the retry wrapper observes it and
replaced by the fixed fallback `WordAnalysis`; consequently `retryWithBackoff`
(called with budget 2 and base delay 6000 as in the source) performs exactly
one call and no backoff delay, and settles successfully. -/
theorem analyzeWord_never_rejects :
    (∀ call parse, ∃ w, analyzeWordTask call parse = Except.ok w) ∧
    (∀ e parse, analyzeWordTask (Except.error e) parse = Except.ok wordFallback) ∧
    (∀ (calls : Nat → Except JsErr (Option String))
       (parse : String → Except JsErr WordAnalysis) (j : Nat → ℚ),
      ∃ w, retryWithBackoff (fun n => analyzeWordTask (calls n) parse) 2 6000 j =
        (RetryResult.ok w, 1, [])) := by
  have htask : ∀ call parse, ∃ w, analyzeWordTask call parse = Except.ok w := by
    intro call parse
    match call with
    | .error e => exact ⟨wordFallback, rfl⟩
    | .ok none => exact ⟨wordFallback, rfl⟩
    | .ok (some t) =>
      match hp : parse t with
      | .error e2 => exact ⟨wordFallback, by simp [analyzeWordTask, hp]⟩
      | .ok w => exact ⟨w, by simp [analyzeWordTask, hp]⟩
  refine ⟨htask, fun e parse => rfl, ?_⟩
  intro calls parse j
  obtain ⟨w, hw⟩ := htask (calls 0) parse
  exact ⟨w, @retryGo_eq_ok WordAnalysis (fun n => analyzeWordTask (calls n) parse)
    6000 j 0 2 w hw⟩

/-! ## The RequestQueue (geminiService.ts:133-208)

The queue and its dispatch loop run on a single-threaded event loop; their
execution is embedded as a small-step transition relation on a queue state.
Every await point of the source (the pacing `setTimeout`, the awaited task)
is a state where other events (new `add()` calls, the passage of time) can
interleave; the synchronous stretches between awaits are single transitions.
A task is represented by the outcome (`Except`) its promise eventually
settles with; task values are `Nat`. -/

/-- One pending entry of the queue (geminiService.ts:134-139): the task is
identified by its eventual outcome, `priority` is the caller-assigned
priority, and `eid` is the insertion sequence number (models submission
order; the resolve/reject pair is identified by it). -/
instance {ε α : Type} [DecidableEq ε] [DecidableEq α] : DecidableEq (Except ε α) :=
  fun x y =>
    match x, y with
    | .ok a, .ok b => decidable_of_iff (a = b) (by simp)
    | .ok _, .error _ => isFalse (fun h => Except.noConfusion h)
    | .error _, .ok _ => isFalse (fun h => Except.noConfusion h)
    | .error a, .error b => decidable_of_iff (a = b) (by simp)

structure Entry : Type where
  eid : Nat
  priority : Int
  outcome : Except JsErr Nat
deriving DecidableEq, Repr

/-- Stable insertion of `a` into a sorted list: `a` is placed before the
first element of strictly lower priority only after skipping every element
of greater-or-equal priority — where earlier-inserted elements sit. -/
def insertByPriority (a : Entry) : List Entry → List Entry
  | [] => [a]
  | b :: l => if a.priority < b.priority then b :: insertByPriority a l else a :: b :: l

/-- `queue.sort((a, b) => b.priority - a.priority)` (geminiService.ts:167):
a stable sort descending by priority, as ECMAScript's `Array.prototype.sort`
is specified to be.  Insertion sort processes later elements first, so on
equal priorities earlier elements stay in front. -/
def sortByPriority : List Entry → List Entry
  | [] => []
  | a :: l => insertByPriority a (sortByPriority l)

/-- `minDelay = 5500` ms (geminiService.ts:146). -/
def minDelay : Int := 5500

/-- Where the dispatch loop stands: not running (`idle`), at the top of the
while loop (`checking`), suspended in the pacing `setTimeout` until
`resumeAt` (`waiting`), or awaiting a dispatched task (`running`). -/
inductive Phase : Type where
  | idle
  | checking
  | waiting (resumeAt : Int)
  | running (e : Entry)
deriving DecidableEq, Repr

/-- How many queue-dispatched tasks are in flight in this phase. -/
def Phase.flight : Phase → Nat
  | .running _ => 1
  | _ => 0

/-- The whole state of the queue singleton together with the ghost data the
claims speak about: `dispatches` logs `(eid, dispatch-start time)` newest
first, `settled` logs `(eid, outcome)` newest first, `added` logs every
entry ever submitted, and `store` is the content of the persisted
`localStorage` key. -/
structure QState : Type where
  queue : List Entry
  isProcessing : Bool
  lastRequestTime : Int
  phase : Phase
  now : Int
  nextId : Nat
  activeLoops : Nat
  dispatches : List (Nat × Int)
  settled : List (Nat × Except JsErr Nat)
  added : List Entry
  store : Option String
deriving DecidableEq, Repr

/-- What the constructor's `localStorage.getItem` try-block observed:
the read threw, or it returned `null` / a string. -/
inductive ReadOutcome : Type where
  | throws
  | value (v : Option String)
deriving DecidableEq, Repr

/-- The leading decimal digits of a character list, as a number. -/
def digitsVal (ds : List Char) : Nat :=
  ds.foldl (fun a c => 10 * a + (c.toNat - 48)) 0

/-- `parseInt(s, 10)`: skip leading whitespace, an optional sign, then read
leading decimal digits; `none` is `NaN` (no digits). -/
def parseIntJs (s : String) : Option Int :=
  let cs := s.toList.dropWhile (fun c => c.isWhitespace)
  match cs with
  | '-' :: rest =>
    let ds := rest.takeWhile (fun c => c.isDigit)
    if ds = [] then none else some (-(digitsVal ds : Int))
  | '+' :: rest =>
    let ds := rest.takeWhile (fun c => c.isDigit)
    if ds = [] then none else some (digitsVal ds)
  | _ =>
    let ds := cs.takeWhile (fun c => c.isDigit)
    if ds = [] then none else some (digitsVal ds)

/-- The constructor's recovery of `lastRequestTime` (geminiService.ts:148-161):
a throwing read, a missing key, or an unparseable string all leave the field
at its initial 0. -/
def initLastRequestTime : ReadOutcome → Int
  | .throws => 0
  | .value none => 0
  | .value (some s) =>
    match parseIntJs s with
    | some ts => ts
    | none => 0

/-- `updateLastRequestTime` (geminiService.ts:202-207): the field is set to
`Date.now()` unconditionally; the `localStorage.setItem` write succeeds or
throws (`writeOk`), and a throw is swallowed, leaving the store unchanged. -/
def updateLastRequestTime (now : Int) (writeOk : Bool) (store : Option String) :
    Int × Option String :=
  (now, if writeOk then some (toString now) else store)

/-- The synchronous effect of `add` on the waiting list (geminiService.ts:
163-170): push the new entry, then stable-sort by descending priority;
the new entry is also recorded in the `added` ghost log. -/
def addEntry (s : QState) (pri : Int) (out : Except JsErr Nat) : QState :=
  { s with queue := sortByPriority (s.queue ++ [⟨s.nextId, pri, out⟩]),
           nextId := s.nextId + 1,
           added := ⟨s.nextId, pri, out⟩ :: s.added }

/-- The synchronous dispatch stretch of one loop iteration (geminiService.ts:
186-192): shift the head entry, run `updateLastRequestTime` (with write
outcome `wr`), and start the task. -/
def dispatchStep (s : QState) (e : Entry) (q : List Entry) (wr : Bool) : QState :=
  { s with queue := q, phase := .running e,
           lastRequestTime := (updateLastRequestTime s.now wr s.store).1,
           store := (updateLastRequestTime s.now wr s.store).2,
           dispatches := (e.eid, s.now) :: s.dispatches }

/-- The state right after `new RequestQueue()` at time `t0`, with read
outcome `r` for the stored timestamp. -/
def initState (r : ReadOutcome) (t0 : Int) : QState :=
  { queue := [], isProcessing := false, lastRequestTime := initLastRequestTime r,
    phase := .idle, now := t0, nextId := 0, activeLoops := 0,
    dispatches := [], settled := [], added := [],
    store := match r with | .throws => none | .value v => v }

/-- One event of the embedded execution.  `tick` is the passage of wall-clock
time (`Date.now()` is non-decreasing).  `addIdle`/`addBusy` are `add()` calls:
both extend the waiting list; the triggered `process()` passes its
`isProcessing` guard only in the first, entering the loop (`activeLoops`
counts loop bodies past the guard).  `exitLoop` is the loop leaving its while
on an empty list; `startWait` enters the pacing `setTimeout`, computed from
the current `Date.now()` and `lastRequestTime`; `dispatchNow` is an iteration
whose pacing check passes immediately; `resumeEmpty`/`resumeDispatch` are the
`setTimeout` firing (at or after its due time) followed by `shift()`;
`settle` is the awaited task settling with its own outcome, which the loop
passes through to the entry's resolve/reject. -/
inductive Step : QState → QState → Prop where
  | tick (s : QState) (d : Int) (h : 0 ≤ d) :
      Step s { s with now := s.now + d }
  | addIdle (s : QState) (pri : Int) (out : Except JsErr Nat)
      (h : s.isProcessing = false) :
      Step s { (addEntry s pri out) with
                 isProcessing := true,
                 activeLoops := s.activeLoops + 1,
                 phase := .checking }
  | addBusy (s : QState) (pri : Int) (out : Except JsErr Nat)
      (h : s.isProcessing = true) :
      Step s (addEntry s pri out)
  | exitLoop (s : QState) (h1 : s.phase = .checking) (h2 : s.queue = []) :
      Step s { s with
                 phase := .idle,
                 isProcessing := false,
                 activeLoops := s.activeLoops - 1 }
  | startWait (s : QState) (h1 : s.phase = .checking) (h2 : s.queue ≠ [])
      (h3 : s.now - s.lastRequestTime < minDelay) :
      Step s { s with phase := .waiting (s.lastRequestTime + minDelay) }
  | dispatchNow (s : QState) (e : Entry) (q : List Entry) (wr : Bool)
      (h1 : s.phase = .checking) (h2 : s.queue = e :: q)
      (h3 : minDelay ≤ s.now - s.lastRequestTime) :
      Step s (dispatchStep s e q wr)
  | resumeEmpty (s : QState) (u : Int) (h1 : s.phase = .waiting u)
      (h2 : s.queue = []) (h3 : u ≤ s.now) :
      Step s { s with phase := .checking }
  | resumeDispatch (s : QState) (e : Entry) (q : List Entry) (u : Int) (wr : Bool)
      (h1 : s.phase = .waiting u) (h2 : s.queue = e :: q) (h3 : u ≤ s.now) :
      Step s (dispatchStep s e q wr)
  | settle (s : QState) (e : Entry) (h : s.phase = .running e) :
      Step s { s with
                 phase := .checking,
                 settled := (e.eid, e.outcome) :: s.settled }

/-- Reachability along `Step` events. -/
def Reach : QState → QState → Prop := Relation.ReflTransGen Step

/-- Everything of a queue state except the persisted-store content: what the
scheduler's behavior is allowed to depend on. -/
def coreOf (s : QState) :
    List Entry × Bool × Int × Phase × Int × Nat × Nat × List (Nat × Int) ×
      List (Nat × Except JsErr Nat) × List Entry :=
  (s.queue, s.isProcessing, s.lastRequestTime, s.phase, s.now, s.nextId,
    s.activeLoops, s.dispatches, s.settled, s.added)

/-! ## Ordering facts about the stable sort -/

/-- The waiting-list invariant's order: strictly descending priority, with
ties broken by submission order (smaller `eid` first). -/
def entRel (a b : Entry) : Prop :=
  b.priority < a.priority ∨ (a.priority = b.priority ∧ a.eid < b.eid)

/-- The waiting-list invariant: sorted descending by priority, ties by
insertion order. -/
def QueueOrdered (l : List Entry) : Prop := List.Pairwise entRel l

/-- Weakly descending priorities. -/
def PrioSorted (l : List Entry) : Prop :=
  List.Pairwise (fun x y => y.priority ≤ x.priority) l

theorem prioSorted_of_ordered {l : List Entry} (h : QueueOrdered l) : PrioSorted l := by
  refine List.Pairwise.imp ?_ h
  intro a b hab
  rcases hab with h1 | h2
  · exact le_of_lt h1
  · exact le_of_eq h2.1.symm

theorem insertByPriority_perm (a : Entry) (l : List Entry) :
    List.Perm (insertByPriority a l) (a :: l) := by
  induction l with
  | nil => simp [insertByPriority]
  | cons b t ih =>
    by_cases h : a.priority < b.priority
    · simp only [insertByPriority, if_pos h]
      exact (ih.cons b).trans (List.Perm.swap a b t)
    · simp [insertByPriority, if_neg h]

theorem sortByPriority_perm (l : List Entry) :
    List.Perm (sortByPriority l) l := by
  induction l with
  | nil => simp [sortByPriority]
  | cons a t ih =>
    exact (insertByPriority_perm a (sortByPriority t)).trans (ih.cons a)

theorem mem_sortByPriority {x : Entry} {l : List Entry} :
    x ∈ sortByPriority l ↔ x ∈ l := (sortByPriority_perm l).mem_iff

/-- Insertion of the latest entry: it goes after every element of
greater-or-equal priority, before the first strictly smaller one. -/
def insertTail (a : Entry) : List Entry → List Entry
  | [] => [a]
  | b :: l => if b.priority < a.priority then a :: b :: l else b :: insertTail a l

theorem mem_insertTail {x a : Entry} {l : List Entry} :
    x ∈ insertTail a l ↔ x = a ∨ x ∈ l := by
  induction l with
  | nil => simp [insertTail]
  | cons b t ih =>
    by_cases h : b.priority < a.priority
    · simp [insertTail, if_pos h]
    · simp [insertTail, if_neg h, ih]
      tauto

theorem insertTail_of_lt {a : Entry} {l : List Entry}
    (h : ∀ y ∈ l, y.priority < a.priority) : insertTail a l = a :: l := by
  cases l with
  | nil => rfl
  | cons b t => simp [insertTail, if_pos (h b (by simp))]

theorem insertByPriority_of_le {x : Entry} {l : List Entry}
    (h : ∀ y ∈ l, y.priority ≤ x.priority) : insertByPriority x l = x :: l := by
  cases l with
  | nil => rfl
  | cons b t =>
    have : ¬ x.priority < b.priority := not_lt.mpr (h b (by simp))
    simp [insertByPriority, if_neg this]

/-- A stable sort of an already-sorted list with one new element pushed at
the end inserts that element after all its priority peers. -/
theorem sort_append_single {q : List Entry} (a : Entry) (hs : PrioSorted q) :
    sortByPriority (q ++ [a]) = insertTail a q := by
  induction q with
  | nil => rfl
  | cons x q ih =>
    have hx : ∀ y ∈ q, y.priority ≤ x.priority := (List.pairwise_cons.mp hs).1
    have hq : PrioSorted q := (List.pairwise_cons.mp hs).2
    show insertByPriority x (sortByPriority (q ++ [a])) = insertTail a (x :: q)
    rw [ih hq]
    by_cases hlt : x.priority < a.priority
    · have h1 : insertTail a q = a :: q :=
        insertTail_of_lt (fun y hy => lt_of_le_of_lt (hx y hy) hlt)
      rw [h1]
      show insertByPriority x (a :: q) = insertTail a (x :: q)
      simp only [insertTail, if_pos hlt]
      simp only [insertByPriority, if_pos hlt]
      rw [insertByPriority_of_le hx]
    · cases q with
      | nil =>
        simp [insertTail, insertByPriority, if_neg hlt]
      | cons b t =>
        have hb : b.priority ≤ x.priority := hx b (by simp)
        show insertByPriority x (insertTail a (b :: t)) = insertTail a (x :: b :: t)
        by_cases hba : b.priority < a.priority
        · simp only [insertTail, if_pos hba, if_neg hlt]
          simp [insertByPriority, if_neg hlt]
        · simp only [insertTail, if_neg hba, if_neg hlt]
          have : ¬ x.priority < b.priority := not_lt.mpr hb
          simp [insertByPriority, if_neg this]

theorem insertTail_ordered {q : List Entry} {a : Entry} (hq : QueueOrdered q)
    (hf : ∀ y ∈ q, y.eid < a.eid) : QueueOrdered (insertTail a q) := by
  induction q with
  | nil => simp [insertTail, QueueOrdered]
  | cons b t ih =>
    have hb : ∀ y ∈ t, entRel b y := (List.pairwise_cons.mp hq).1
    have ht : QueueOrdered t := (List.pairwise_cons.mp hq).2
    by_cases hba : b.priority < a.priority
    · simp only [insertTail, if_pos hba]
      refine List.Pairwise.cons ?_ hq
      intro y hy
      rcases List.mem_cons.mp hy with rfl | hy2
      · exact Or.inl hba
      · left
        have : y.priority ≤ b.priority := by
          rcases hb y hy2 with h1 | h2
          · exact le_of_lt h1
          · exact le_of_eq h2.1.symm
        exact lt_of_le_of_lt this hba
    · simp only [insertTail, if_neg hba]
      refine List.Pairwise.cons ?_ (ih ht (fun y hy => hf y (by simp [hy])))
      intro y hy
      rcases mem_insertTail.mp hy with rfl | hy2
      · rcases lt_or_eq_of_le (not_lt.mp hba) with h1 | h2
        · exact Or.inl h1
        · exact Or.inr ⟨h2.symm, hf b (by simp)⟩
      · exact hb y hy2

/-- The effect of `add` on an invariant-satisfying waiting list: the result
is again sorted descending with insertion-order ties. -/
theorem add_ordered {q : List Entry} {n : Nat} {p : Int} {o : Except JsErr Nat}
    (hq : QueueOrdered q) (hf : ∀ y ∈ q, y.eid < n) :
    QueueOrdered (sortByPriority (q ++ [⟨n, p, o⟩])) := by
  rw [sort_append_single _ (prioSorted_of_ordered hq)]
  exact insertTail_ordered hq hf

theorem add_nodup {q : List Entry} {n : Nat} {p : Int} {o : Except JsErr Nat}
    (hq : (q.map Entry.eid).Nodup) (hf : ∀ y ∈ q, y.eid < n) :
    ((sortByPriority (q ++ [⟨n, p, o⟩])).map Entry.eid).Nodup := by
  have hperm := (sortByPriority_perm (q ++ [⟨n, p, o⟩])).map Entry.eid
  rw [hperm.nodup_iff]
  rw [List.map_append]
  refine List.Nodup.append hq (by simp) ?_
  intro x hx hx2
  simp at hx2
  obtain ⟨y, hy, hye⟩ := List.mem_map.mp hx
  have := hf y hy
  omega

/-! ## The queue invariant -/

/-- Everything the claims need, preserved by every `Step`:
pacing bookkeeping (`paced`, `lastTime`, `waitTime`), the waiting-list
ordering (`ordered`..`queueLogged`), the dispatch-loop discipline
(`procIdle`..`counts`, `runInv`), and settlement bookkeeping
(`settledNodup`..`settledLog`). -/
structure QInv (s : QState) : Prop where
  paced : List.Chain' (fun a b : Nat × Int => b.2 + minDelay ≤ a.2) s.dispatches
  lastTime : ∀ i t, s.dispatches.head? = some (i, t) → t = s.lastRequestTime
  waitTime : ∀ u, s.phase = .waiting u → u = s.lastRequestTime + minDelay
  ordered : QueueOrdered s.queue
  queueIds : (s.queue.map Entry.eid).Nodup
  queueBound : ∀ x ∈ s.queue, x.eid < s.nextId
  queueFresh : ∀ x ∈ s.queue, x.eid ∉ s.settled.map Prod.fst
  queueLogged : ∀ x ∈ s.queue, x ∈ s.added
  procIdle : s.isProcessing = false → s.phase = .idle ∧ s.activeLoops = 0
  procBusy : s.isProcessing = true → s.phase ≠ .idle ∧ s.activeLoops = 1
  idleEmpty : s.phase = .idle → s.queue = []
  counts : s.dispatches.length = s.settled.length + s.phase.flight
  runInv : ∀ e, s.phase = .running e → e.eid < s.nextId ∧
    e.eid ∉ s.settled.map Prod.fst ∧ e ∈ s.added ∧ ∀ x ∈ s.queue, x.eid ≠ e.eid
  settledNodup : (s.settled.map Prod.fst).Nodup
  settledBound : ∀ p ∈ s.settled, p.1 < s.nextId
  settledLog : ∀ p ∈ s.settled, ∃ e, e ∈ s.added ∧ e.eid = p.1 ∧ e.outcome = p.2

theorem inv_init (r : ReadOutcome) (t0 : Int) : QInv (initState r t0) := by
  constructor <;> simp [initState, QueueOrdered, Phase.flight]

theorem busy_of_phase {s : QState} (hs : QInv s) (h : s.phase ≠ .idle) :
    s.isProcessing = true := by
  cases hip : s.isProcessing
  · exact absurd (hs.procIdle hip).1 h
  · rfl

/-- Dispatching the head entry preserves the invariant, given the pacing
bound and a loop phase that is neither idle nor already running a task. -/
theorem inv_dispatch {s : QState} {e : Entry} {q : List Entry} {wr : Bool}
    (hs : QInv s) (h2 : s.queue = e :: q)
    (hpace : s.lastRequestTime + minDelay ≤ s.now)
    (hnotidle : s.phase ≠ .idle) (hflight : s.phase.flight = 0) :
    QInv (dispatchStep s e q wr) := by
  have hbusy : s.isProcessing = true := busy_of_phase hs hnotidle
  have hqord : QueueOrdered (e :: q) := h2 ▸ hs.ordered
  have hqids : ((e :: q).map Entry.eid).Nodup := h2 ▸ hs.queueIds
  have hemem : e ∈ s.queue := by rw [h2]; simp
  refine ⟨?_, ?_, ?_, ?_, ?_, ?_, ?_, ?_, ?_, ?_, ?_, ?_, ?_,
    hs.settledNodup, hs.settledBound, hs.settledLog⟩
  · show List.Chain' (fun a b : Nat × Int => b.2 + minDelay ≤ a.2)
      ((e.eid, s.now) :: s.dispatches)
    refine List.chain'_cons'.mpr ⟨?_, hs.paced⟩
    intro p hp
    rcases hd : s.dispatches with _ | ⟨⟨i, t2⟩, rest⟩
    · rw [hd] at hp; simp at hp
    · rw [hd] at hp
      simp at hp
      have hlt := hs.lastTime i t2 (by rw [hd]; rfl)
      subst hp
      show t2 + minDelay ≤ s.now
      omega
  · intro i t2 h
    have h2b : (e.eid, s.now) = (i, t2) := Option.some_inj.mp h
    have ht : s.now = t2 := congrArg Prod.snd h2b
    exact ht.symm
  · exact fun u hu => Phase.noConfusion hu
  · exact (List.pairwise_cons.mp hqord).2
  · exact (List.nodup_cons.mp hqids).2
  · intro x hx
    have hx2 : x ∈ q := hx
    exact hs.queueBound x (by rw [h2]; exact List.mem_cons_of_mem _ hx2)
  · intro x hx
    have hx2 : x ∈ q := hx
    exact hs.queueFresh x (by rw [h2]; exact List.mem_cons_of_mem _ hx2)
  · intro x hx
    have hx2 : x ∈ q := hx
    exact hs.queueLogged x (by rw [h2]; exact List.mem_cons_of_mem _ hx2)
  · intro h
    exact absurd (show s.isProcessing = false from h) (by simp [hbusy])
  · intro _
    exact ⟨show Phase.running e ≠ Phase.idle by simp, (hs.procBusy hbusy).2⟩
  · intro h; exact Phase.noConfusion (show Phase.running e = Phase.idle from h)
  · show ((e.eid, s.now) :: s.dispatches).length =
      s.settled.length + (Phase.running e).flight
    have hc := hs.counts
    rw [hflight] at hc
    simp [Phase.flight, hc]
  · intro e2 he2
    have he3 : e = e2 := by
      have := (show Phase.running e = Phase.running e2 from he2)
      injection this
    subst he3
    refine ⟨hs.queueBound e hemem, hs.queueFresh e hemem, hs.queueLogged e hemem, ?_⟩
    intro x hx
    have hx2 : x ∈ q := hx
    have hnd := (List.nodup_cons.mp hqids).1
    intro hxe
    exact hnd (by rw [← hxe]; exact List.mem_map.mpr ⟨x, hx2, rfl⟩)

theorem inv_step {s t : QState} (hs : QInv s) (hst : Step s t) : QInv t := by
  cases hst with
  | tick d hd =>
    exact ⟨hs.paced, hs.lastTime, hs.waitTime, hs.ordered, hs.queueIds, hs.queueBound,
      hs.queueFresh, hs.queueLogged, hs.procIdle, hs.procBusy, hs.idleEmpty, hs.counts,
      hs.runInv, hs.settledNodup, hs.settledBound, hs.settledLog⟩
  | addIdle pri out hp =>
    obtain ⟨hidle, hloops⟩ := hs.procIdle hp
    refine ⟨hs.paced, hs.lastTime, ?_, ?_, ?_, ?_, ?_, ?_, ?_, ?_, ?_, ?_, ?_,
      hs.settledNodup, ?_, ?_⟩
    · exact fun u hu => Phase.noConfusion hu
    · exact add_ordered hs.ordered hs.queueBound
    · exact add_nodup hs.queueIds hs.queueBound
    · intro x hx
      rcases List.mem_append.mp (mem_sortByPriority.mp hx) with hq | hnew
      · exact Nat.lt_succ_of_lt (hs.queueBound x hq)
      · simp at hnew; subst hnew
        show s.nextId < s.nextId + 1
        omega
    · intro x hx
      rcases List.mem_append.mp (mem_sortByPriority.mp hx) with hq | hnew
      · exact hs.queueFresh x hq
      · simp at hnew; subst hnew
        intro hmem
        obtain ⟨p, hp2, hpe⟩ := List.mem_map.mp hmem
        have := hs.settledBound p hp2
        simp at hpe
        omega
    · intro x hx
      rcases List.mem_append.mp (mem_sortByPriority.mp hx) with hq | hnew
      · exact List.mem_cons_of_mem _ (hs.queueLogged x hq)
      · simp at hnew; subst hnew; exact List.mem_cons_self _ _
    · intro h; exact absurd h (by simp)
    · intro _
      refine ⟨by simp, ?_⟩
      show s.activeLoops + 1 = 1
      omega
    · intro h; exact absurd h (by simp)
    · show s.dispatches.length = s.settled.length + Phase.checking.flight
      have hc := hs.counts
      rw [hidle] at hc
      simpa [Phase.flight] using hc
    · exact fun e he => Phase.noConfusion he
    · intro p hp2; exact Nat.lt_succ_of_lt (hs.settledBound p hp2)
    · intro p hp2
      obtain ⟨e, he, he1, he2⟩ := hs.settledLog p hp2
      exact ⟨e, List.mem_cons_of_mem _ he, he1, he2⟩
  | addBusy pri out hp =>
    have hnb := hs.procBusy hp
    refine ⟨hs.paced, hs.lastTime, hs.waitTime, ?_, ?_, ?_, ?_, ?_, ?_, ?_, ?_, ?_, ?_,
      hs.settledNodup, ?_, ?_⟩
    · exact add_ordered hs.ordered hs.queueBound
    · exact add_nodup hs.queueIds hs.queueBound
    · intro x hx
      rcases List.mem_append.mp (mem_sortByPriority.mp hx) with hq | hnew
      · exact Nat.lt_succ_of_lt (hs.queueBound x hq)
      · simp at hnew; subst hnew
        show s.nextId < s.nextId + 1
        omega
    · intro x hx
      rcases List.mem_append.mp (mem_sortByPriority.mp hx) with hq | hnew
      · exact hs.queueFresh x hq
      · simp at hnew; subst hnew
        intro hmem
        obtain ⟨p, hp2, hpe⟩ := List.mem_map.mp hmem
        have := hs.settledBound p hp2
        simp at hpe
        omega
    · intro x hx
      rcases List.mem_append.mp (mem_sortByPriority.mp hx) with hq | hnew
      · exact List.mem_cons_of_mem _ (hs.queueLogged x hq)
      · simp at hnew; subst hnew; exact List.mem_cons_self _ _
    · intro h
      exact absurd (show s.isProcessing = false from h) (by simp [hp])
    · intro _; exact hnb
    · intro h; exact absurd h hnb.1
    · exact hs.counts
    · intro e he
      obtain ⟨h1, h2, h3, h4⟩ := hs.runInv e he
      refine ⟨Nat.lt_succ_of_lt h1, h2, List.mem_cons_of_mem _ h3, ?_⟩
      intro x hx
      rcases List.mem_append.mp (mem_sortByPriority.mp hx) with hq | hnew
      · exact h4 x hq
      · simp at hnew; subst hnew
        show s.nextId ≠ e.eid
        omega
    · intro p hp2; exact Nat.lt_succ_of_lt (hs.settledBound p hp2)
    · intro p hp2
      obtain ⟨e, he, he1, he2⟩ := hs.settledLog p hp2
      exact ⟨e, List.mem_cons_of_mem _ he, he1, he2⟩
  | exitLoop h1 h2 =>
    have hbusy : s.isProcessing = true := busy_of_phase hs (by rw [h1]; simp)
    have hloops := (hs.procBusy hbusy).2
    refine ⟨hs.paced, hs.lastTime, ?_, hs.ordered, hs.queueIds, hs.queueBound,
      hs.queueFresh, hs.queueLogged, ?_, ?_, ?_, ?_, ?_, hs.settledNodup,
      hs.settledBound, hs.settledLog⟩
    · exact fun u hu => Phase.noConfusion hu
    · intro _
      refine ⟨rfl, ?_⟩
      show s.activeLoops - 1 = 0
      omega
    · intro h; exact absurd h (by simp)
    · intro _; exact h2
    · show s.dispatches.length = s.settled.length + Phase.idle.flight
      have hc := hs.counts
      rw [h1] at hc
      simpa [Phase.flight] using hc
    · exact fun e he => Phase.noConfusion he
  | startWait h1 h2 h3 =>
    have hbusy : s.isProcessing = true := busy_of_phase hs (by rw [h1]; simp)
    refine ⟨hs.paced, hs.lastTime, ?_, hs.ordered, hs.queueIds, hs.queueBound,
      hs.queueFresh, hs.queueLogged, ?_, ?_, ?_, ?_, ?_, hs.settledNodup,
      hs.settledBound, hs.settledLog⟩
    · intro u hu
      have : Phase.waiting (s.lastRequestTime + minDelay) = Phase.waiting u := hu
      injection this with h4
      exact h4.symm
    · intro h
      exact absurd (show s.isProcessing = false from h) (by simp [hbusy])
    · intro _; exact ⟨by simp, (hs.procBusy hbusy).2⟩
    · intro h; exact absurd h (by simp)
    · show s.dispatches.length =
        s.settled.length + (Phase.waiting (s.lastRequestTime + minDelay)).flight
      have hc := hs.counts
      rw [h1] at hc
      simpa [Phase.flight] using hc
    · exact fun e he => Phase.noConfusion he
  | dispatchNow e q wr h1 h2 h3 =>
    refine inv_dispatch hs h2 (by omega) (by rw [h1]; simp) (by rw [h1]; rfl)
  | resumeEmpty u h1 h2 h3 =>
    have hbusy : s.isProcessing = true := busy_of_phase hs (by rw [h1]; simp)
    refine ⟨hs.paced, hs.lastTime, ?_, hs.ordered, hs.queueIds, hs.queueBound,
      hs.queueFresh, hs.queueLogged, ?_, ?_, ?_, ?_, ?_, hs.settledNodup,
      hs.settledBound, hs.settledLog⟩
    · exact fun u2 hu => Phase.noConfusion hu
    · intro h
      exact absurd (show s.isProcessing = false from h) (by simp [hbusy])
    · intro _; exact ⟨by simp, (hs.procBusy hbusy).2⟩
    · intro h; exact absurd h (by simp)
    · show s.dispatches.length = s.settled.length + Phase.checking.flight
      have hc := hs.counts
      rw [h1] at hc
      simpa [Phase.flight] using hc
    · exact fun e he => Phase.noConfusion he
  | resumeDispatch e q u wr h1 h2 h3 =>
    have hu : u = s.lastRequestTime + minDelay := hs.waitTime u h1
    refine inv_dispatch hs h2 (by omega) (by rw [h1]; simp) (by rw [h1]; rfl)
  | settle e h =>
    have hbusy : s.isProcessing = true := busy_of_phase hs (by rw [h]; simp)
    obtain ⟨hr1, hr2, hr3, hr4⟩ := hs.runInv e h
    refine ⟨hs.paced, hs.lastTime, ?_, hs.ordered, hs.queueIds, hs.queueBound,
      ?_, hs.queueLogged, ?_, ?_, ?_, ?_, ?_, ?_, ?_, ?_⟩
    · exact fun u hu => Phase.noConfusion hu
    · intro x hx
      show x.eid ∉ ((e.eid, e.outcome) :: s.settled).map Prod.fst
      intro hmem
      rcases List.mem_cons.mp hmem with h1 | h1
      · exact hr4 x hx h1
      · exact hs.queueFresh x hx h1
    · intro h2
      exact absurd (show s.isProcessing = false from h2) (by simp [hbusy])
    · intro _; exact ⟨by simp, (hs.procBusy hbusy).2⟩
    · intro h2; exact absurd h2 (by simp)
    · show s.dispatches.length =
        ((e.eid, e.outcome) :: s.settled).length + Phase.checking.flight
      have hc := hs.counts
      rw [h] at hc
      simp only [Phase.flight] at hc ⊢
      simp [hc]
    · exact fun e2 he2 => Phase.noConfusion he2
    · show (((e.eid, e.outcome) :: s.settled).map Prod.fst).Nodup
      simp only [List.map_cons]
      exact List.nodup_cons.mpr ⟨hr2, hs.settledNodup⟩
    · intro p hp2
      rcases List.mem_cons.mp hp2 with rfl | hp3
      · exact hr1
      · exact hs.settledBound p hp3
    · intro p hp2
      rcases List.mem_cons.mp hp2 with rfl | hp3
      · exact ⟨e, hr3, rfl, rfl⟩
      · exact hs.settledLog p hp3

theorem inv_reach {s t : QState} (hs : QInv s) (h : Reach s t) : QInv t := by
  induction h with
  | refl => exact hs
  | tail _ hstep ih => exact inv_step ih hstep

/-! ## Liveness: the loop drains the queue -/

/-- Cost of a dispatch-loop phase toward draining. -/
def phaseCost : Phase → Nat
  | .idle => 0
  | .checking => 1
  | .waiting _ => 2
  | .running _ => 2

/-- Drain measure: strictly decreases along the constructed run. -/
def qMeasure (s : QState) : Nat := 3 * s.queue.length + phaseCost s.phase

/-- Entry `i` is still owed a settlement or already has one: it waits in the
queue, is in flight, or is settled. -/
def Pend (s : QState) (i : Nat) : Prop :=
  (∃ x ∈ s.queue, x.eid = i) ∨ (∃ e, s.phase = .running e ∧ e.eid = i) ∨
    i ∈ s.settled.map Prod.fst

theorem drain (n : Nat) : ∀ s, QInv s → qMeasure s ≤ n →
    ∃ t, Reach s t ∧ ∀ i, Pend s i → i ∈ t.settled.map Prod.fst := by
  induction n with
  | zero =>
    intro s hs hm
    refine ⟨s, Relation.ReflTransGen.refl, ?_⟩
    have hq : s.queue = [] := by
      have h1 : 3 * s.queue.length + phaseCost s.phase ≤ 0 := hm
      have : s.queue.length = 0 := by omega
      exact List.length_eq_zero.mp this
    have hpc : phaseCost s.phase = 0 := by
      have h1 : 3 * s.queue.length + phaseCost s.phase ≤ 0 := hm
      omega
    intro i hi
    rcases hi with ⟨x, hx, _⟩ | ⟨e, he, _⟩ | hset
    · rw [hq] at hx; cases hx
    · rw [he] at hpc; simp [phaseCost] at hpc
    · exact hset
  | succ m ih =>
    intro s hs hm
    cases hph : s.phase with
    | idle =>
      refine ⟨s, Relation.ReflTransGen.refl, ?_⟩
      intro i hi
      rcases hi with ⟨x, hx, _⟩ | ⟨e, he, _⟩ | hset
      · rw [hs.idleEmpty hph] at hx; cases hx
      · rw [hph] at he; exact Phase.noConfusion he
      · exact hset
    | checking =>
      cases hq : s.queue with
      | nil =>
        refine ⟨s, Relation.ReflTransGen.refl, ?_⟩
        intro i hi
        rcases hi with ⟨x, hx, _⟩ | ⟨e, he, _⟩ | hset
        · rw [hq] at hx; cases hx
        · rw [hph] at he; exact Phase.noConfusion he
        · exact hset
      | cons e q =>
        have hm2 : 3 * (q.length + 1) + 1 ≤ m + 1 := by
          have h1 : 3 * s.queue.length + phaseCost s.phase ≤ m + 1 := hm
          rw [hph, hq] at h1
          simpa [phaseCost] using h1
        have hpend : ∀ i, Pend s i → Pend (dispatchStep s e q true) i := by
          intro i hi
          rcases hi with ⟨x, hx, hxe⟩ | ⟨e2, he2, _⟩ | hset
          · rw [hq] at hx
            rcases List.mem_cons.mp hx with rfl | hx2
            · exact Or.inr (Or.inl ⟨x, rfl, hxe⟩)
            · exact Or.inl ⟨x, hx2, hxe⟩
          · rw [hph] at he2; exact Phase.noConfusion he2
          · exact Or.inr (Or.inr hset)
        by_cases hpace : minDelay ≤ s.now - s.lastRequestTime
        · have hstep : Step s (dispatchStep s e q true) :=
            Step.dispatchNow s e q true hph hq hpace
          have hinv2 := inv_step hs hstep
          have hmeas : qMeasure (dispatchStep s e q true) ≤ m := by
            show 3 * q.length + phaseCost (Phase.running e) ≤ m
            simp only [phaseCost]
            omega
          obtain ⟨t, hreach, hp⟩ := ih _ hinv2 hmeas
          exact ⟨t, Relation.ReflTransGen.head hstep hreach,
            fun i hi => hp i (hpend i hi)⟩
        · have hstep1 : Step s { s with phase := .waiting (s.lastRequestTime + minDelay) } :=
            Step.startWait s hph (by rw [hq]; simp) (by omega)
          have hinv1 := inv_step hs hstep1
          have hstep2 : Step { s with phase := .waiting (s.lastRequestTime + minDelay) } { s with phase := .waiting (s.lastRequestTime + minDelay), now := s.now + (s.lastRequestTime + minDelay - s.now) } :=
            Step.tick _ (s.lastRequestTime + minDelay - s.now) (by omega)
          have hinv2 := inv_step hinv1 hstep2
          set s2 : QState := { s with phase := .waiting (s.lastRequestTime + minDelay), now := s.now + (s.lastRequestTime + minDelay - s.now) } with hs2
          have hstep3 : Step s2 (dispatchStep s2 e q true) :=
            Step.resumeDispatch s2 e q (s.lastRequestTime + minDelay) true rfl hq
              (by show s.lastRequestTime + minDelay ≤ s.now + (s.lastRequestTime + minDelay - s.now); omega)
          have hinv3 := inv_step hinv2 hstep3
          have hmeas : qMeasure (dispatchStep s2 e q true) ≤ m := by
            show 3 * q.length + phaseCost (Phase.running e) ≤ m
            simp only [phaseCost]
            omega
          obtain ⟨t, hreach, hp⟩ := ih _ hinv3 hmeas
          refine ⟨t, Relation.ReflTransGen.head hstep1 (Relation.ReflTransGen.head hstep2
            (Relation.ReflTransGen.head hstep3 hreach)), ?_⟩
          intro i hi
          apply hp
          rcases hi with ⟨x, hx, hxe⟩ | ⟨e2, he2, _⟩ | hset
          · rw [hq] at hx
            rcases List.mem_cons.mp hx with rfl | hx2
            · exact Or.inr (Or.inl ⟨x, rfl, hxe⟩)
            · exact Or.inl ⟨x, hx2, hxe⟩
          · rw [hph] at he2; exact Phase.noConfusion he2
          · exact Or.inr (Or.inr hset)
    | waiting u =>
      cases hq : s.queue with
      | nil =>
        refine ⟨s, Relation.ReflTransGen.refl, ?_⟩
        intro i hi
        rcases hi with ⟨x, hx, _⟩ | ⟨e, he, _⟩ | hset
        · rw [hq] at hx; cases hx
        · rw [hph] at he; exact Phase.noConfusion he
        · exact hset
      | cons e q =>
        have hm2 : 3 * (q.length + 1) + 2 ≤ m + 1 := by
          have h1 : 3 * s.queue.length + phaseCost s.phase ≤ m + 1 := hm
          rw [hph, hq] at h1
          simpa [phaseCost] using h1
        by_cases hnow : u ≤ s.now
        · have hstep : Step s (dispatchStep s e q true) :=
            Step.resumeDispatch s e q u true hph hq hnow
          have hinv2 := inv_step hs hstep
          have hmeas : qMeasure (dispatchStep s e q true) ≤ m := by
            show 3 * q.length + phaseCost (Phase.running e) ≤ m
            simp only [phaseCost]
            omega
          obtain ⟨t, hreach, hp⟩ := ih _ hinv2 hmeas
          refine ⟨t, Relation.ReflTransGen.head hstep hreach, ?_⟩
          intro i hi
          apply hp
          rcases hi with ⟨x, hx, hxe⟩ | ⟨e2, he2, _⟩ | hset
          · rw [hq] at hx
            rcases List.mem_cons.mp hx with rfl | hx2
            · exact Or.inr (Or.inl ⟨x, rfl, hxe⟩)
            · exact Or.inl ⟨x, hx2, hxe⟩
          · rw [hph] at he2; exact Phase.noConfusion he2
          · exact Or.inr (Or.inr hset)
        · have hstep1 : Step s { s with now := s.now + (u - s.now) } :=
            Step.tick s (u - s.now) (by omega)
          have hinv1 := inv_step hs hstep1
          set s2 : QState := { s with now := s.now + (u - s.now) } with hs2
          have hstep2 : Step s2 (dispatchStep s2 e q true) :=
            Step.resumeDispatch s2 e q u true hph hq
              (by show u ≤ s.now + (u - s.now); omega)
          have hinv2 := inv_step hinv1 hstep2
          have hmeas : qMeasure (dispatchStep s2 e q true) ≤ m := by
            show 3 * q.length + phaseCost (Phase.running e) ≤ m
            simp only [phaseCost]
            omega
          obtain ⟨t, hreach, hp⟩ := ih _ hinv2 hmeas
          refine ⟨t, Relation.ReflTransGen.head hstep1
            (Relation.ReflTransGen.head hstep2 hreach), ?_⟩
          intro i hi
          apply hp
          rcases hi with ⟨x, hx, hxe⟩ | ⟨e2, he2, _⟩ | hset
          · rw [hq] at hx
            rcases List.mem_cons.mp hx with rfl | hx2
            · exact Or.inr (Or.inl ⟨x, rfl, hxe⟩)
            · exact Or.inl ⟨x, hx2, hxe⟩
          · rw [hph] at he2; exact Phase.noConfusion he2
          · exact Or.inr (Or.inr hset)
    | running e =>
      have hstep : Step s { s with phase := .checking, settled := (e.eid, e.outcome) :: s.settled } :=
        Step.settle s e hph
      have hinv2 := inv_step hs hstep
      have hm2 : 3 * s.queue.length + 2 ≤ m + 1 := by
        have h1 : 3 * s.queue.length + phaseCost s.phase ≤ m + 1 := hm
        rw [hph] at h1
        simpa [phaseCost] using h1
      have hmeas : qMeasure { s with phase := .checking, settled := (e.eid, e.outcome) :: s.settled } ≤ m := by
        show 3 * s.queue.length + phaseCost Phase.checking ≤ m
        simp only [phaseCost]
        omega
      obtain ⟨t, hreach, hp⟩ := ih _ hinv2 hmeas
      refine ⟨t, Relation.ReflTransGen.head hstep hreach, ?_⟩
      intro i hi
      apply hp
      rcases hi with ⟨x, hx, hxe⟩ | ⟨e2, he2, he2e⟩ | hset
      · exact Or.inl ⟨x, hx, hxe⟩
      · rw [hph] at he2
        have : e = e2 := by injection he2
        subst this
        refine Or.inr (Or.inr ?_)
        show i ∈ ((e.eid, e.outcome) :: s.settled).map Prod.fst
        rw [← he2e]
        simp
      · refine Or.inr (Or.inr ?_)
        show i ∈ ((e.eid, e.outcome) :: s.settled).map Prod.fst
        simp [hset]

/-! ## Claim theorems about the queue -/

/-- C1: for every two consecutive dispatches performed by the queue, the gap
between their dispatch-start timestamps is at least `minDelay` (5500 ms),
for every execution — all sequences of `add()` calls, priorities, and
submission timings. -/
theorem queue_pacing (r : ReadOutcome) (t0 : Int) (s : QState)
    (h : Reach (initState r t0) s) :
    List.Chain' (fun a b : Nat × Int => b.2 + minDelay ≤ a.2) s.dispatches :=
  (inv_reach (inv_init r t0) h).paced

/-- C2: after every insertion via `add()` (indeed at all times) the waiting
list is sorted descending by priority with ties broken by insertion order;
consequently the entry the dispatch loop selects — the list head — dominates
every other waiting entry: any strictly-higher-priority waiting entry would
be ahead of it, and among equal priorities the earliest-submitted one is
taken first. -/
theorem queue_priority_order (r : ReadOutcome) (t0 : Int) (s : QState)
    (h : Reach (initState r t0) s) :
    QueueOrdered s.queue ∧
    ∀ e q, s.queue = e :: q → ∀ x ∈ q,
      x.priority < e.priority ∨ (x.priority = e.priority ∧ e.eid < x.eid) := by
  have hinv := inv_reach (inv_init r t0) h
  refine ⟨hinv.ordered, ?_⟩
  intro e q hq x hx
  have hrel := (List.pairwise_cons.mp (hq ▸ hinv.ordered)).1 x hx
  rcases hrel with h1 | h2
  · exact Or.inl h1
  · exact Or.inr ⟨h2.1.symm, h2.2⟩

/-- C5: at most one queue-dispatched task is ever in flight: at most one
loop body is past the `isProcessing` guard, the phase carries at most one
running task, and every dispatch before the current one has settled
(`dispatches` exceeds `settled` exactly by the in-flight count).  An `add()`
while the loop runs only extends the waiting list: it changes neither the
processing flag, the phase, the loop count, nor the dispatch/settle logs. -/
theorem single_flight (r : ReadOutcome) (t0 : Int) (s : QState)
    (h : Reach (initState r t0) s) :
    (s.activeLoops ≤ 1 ∧ s.phase.flight ≤ 1 ∧
      s.dispatches.length = s.settled.length + s.phase.flight) ∧
    ∀ (s2 : QState) (pri : Int) (out : Except JsErr Nat),
      (addEntry s2 pri out).isProcessing = s2.isProcessing ∧
      (addEntry s2 pri out).phase = s2.phase ∧
      (addEntry s2 pri out).activeLoops = s2.activeLoops ∧
      (addEntry s2 pri out).dispatches = s2.dispatches ∧
      (addEntry s2 pri out).settled = s2.settled := by
  have hinv := inv_reach (inv_init r t0) h
  constructor
  · refine ⟨?_, ?_, hinv.counts⟩
    · cases hip : s.isProcessing
      · have := (hinv.procIdle hip).2; omega
      · have := (hinv.procBusy hip).2; omega
    · cases s.phase <;> simp [Phase.flight]
  · intro s2 pri out
    exact ⟨rfl, rfl, rfl, rfl, rfl⟩

/-- C6: every settled entry settles with exactly the outcome of the task it
was submitted with (the queue never converts success into failure or vice
versa), every entry settles at most once, and from any reachable state the
loop can go on to settle every currently queued and in-flight entry —
a rejecting task does not stop later entries from dispatching. -/
theorem failure_isolation (r : ReadOutcome) (t0 : Int) (s : QState)
    (h : Reach (initState r t0) s) :
    (∀ p ∈ s.settled, ∃ e, e ∈ s.added ∧ e.eid = p.1 ∧ e.outcome = p.2) ∧
    (s.settled.map Prod.fst).Nodup ∧
    ∃ t, Reach s t ∧ (∀ x ∈ s.queue, x.eid ∈ t.settled.map Prod.fst) ∧
      (∀ e, s.phase = .running e → e.eid ∈ t.settled.map Prod.fst) := by
  have hinv := inv_reach (inv_init r t0) h
  refine ⟨hinv.settledLog, hinv.settledNodup, ?_⟩
  obtain ⟨t, hreach, hp⟩ := drain (qMeasure s) s hinv le_rfl
  exact ⟨t, hreach, fun x hx => hp x.eid (Or.inl ⟨x, hx, rfl⟩),
    fun e he => hp e.eid (Or.inr (Or.inl ⟨e, he, rfl⟩))⟩

/-- C8: a throwing read, a missing key, or an unparseable stored timestamp
leave `lastRequestTime` at 0, so no initial delay is imposed; a write
failure is swallowed — `lastRequestTime` is updated regardless — and the
whole scheduler is bisimilar across any difference in durable-store
content: its behavior never depends on the store. -/
theorem persistence_resilience :
    initLastRequestTime .throws = 0 ∧
    initLastRequestTime (.value none) = 0 ∧
    (∀ str, parseIntJs str = none → initLastRequestTime (.value (some str)) = 0) ∧
    (∀ (now : Int) (wr : Bool) (st : Option String),
      (updateLastRequestTime now wr st).1 = now) ∧
    (∀ s1 s2 t1 : QState, coreOf s1 = coreOf s2 → Step s1 t1 →
      ∃ t2, Step s2 t2 ∧ coreOf t1 = coreOf t2) := by
  refine ⟨rfl, rfl, ?_, ?_, ?_⟩
  · intro str hstr
    simp [initLastRequestTime, hstr]
  · intro now wr st
    rfl
  · intro s1 s2 t1 hss hstep
    have h := hss
    simp only [coreOf, Prod.mk.injEq] at h
    obtain ⟨hqu, hip, hlrt, hph, hnow, hnid, hal, hdp, hst, had⟩ := h
    cases hstep with
    | tick d hd =>
      refine ⟨_, Step.tick s2 d hd, ?_⟩
      simp [coreOf, hqu, hip, hlrt, hph, hnow, hnid, hal, hdp, hst, had]
    | addIdle pri out hp =>
      refine ⟨_, Step.addIdle s2 pri out (by rw [← hip]; exact hp), ?_⟩
      simp [coreOf, addEntry, hqu, hip, hlrt, hph, hnow, hnid, hal, hdp, hst, had]
    | addBusy pri out hp =>
      refine ⟨_, Step.addBusy s2 pri out (by rw [← hip]; exact hp), ?_⟩
      simp [coreOf, addEntry, hqu, hip, hlrt, hph, hnow, hnid, hal, hdp, hst, had]
    | exitLoop h1 h2 =>
      refine ⟨_, Step.exitLoop s2 (by rw [← hph]; exact h1) (by rw [← hqu]; exact h2), ?_⟩
      simp [coreOf, hqu, hip, hlrt, hph, hnow, hnid, hal, hdp, hst, had]
    | startWait h1 h2 h3 =>
      refine ⟨_, Step.startWait s2 (by rw [← hph]; exact h1) (by rw [← hqu]; exact h2)
        (by rw [← hnow, ← hlrt]; exact h3), ?_⟩
      simp [coreOf, hqu, hip, hlrt, hph, hnow, hnid, hal, hdp, hst, had]
    | dispatchNow e q wr h1 h2 h3 =>
      refine ⟨_, Step.dispatchNow s2 e q wr (by rw [← hph]; exact h1)
        (by rw [← hqu]; exact h2) (by rw [← hnow, ← hlrt]; exact h3), ?_⟩
      simp [coreOf, dispatchStep, updateLastRequestTime, hqu, hip, hlrt, hph,
        hnow, hnid, hal, hdp, hst, had]
    | resumeEmpty u h1 h2 h3 =>
      refine ⟨_, Step.resumeEmpty s2 u (by rw [← hph]; exact h1)
        (by rw [← hqu]; exact h2) (by rw [← hnow]; exact h3), ?_⟩
      simp [coreOf, hqu, hip, hlrt, hph, hnow, hnid, hal, hdp, hst, had]
    | resumeDispatch e q u wr h1 h2 h3 =>
      refine ⟨_, Step.resumeDispatch s2 e q u wr (by rw [← hph]; exact h1)
        (by rw [← hqu]; exact h2) (by rw [← hnow]; exact h3), ?_⟩
      simp [coreOf, dispatchStep, updateLastRequestTime, hqu, hip, hlrt, hph,
        hnow, hnid, hal, hdp, hst, had]
    | settle e h1 =>
      refine ⟨_, Step.settle s2 e (by rw [← hph]; exact h1), ?_⟩
      simp [coreOf, hqu, hip, hlrt, hph, hnow, hnid, hal, hdp, hst, had]

/-! ## A concrete execution, used by the witnesses

Starting at time 100000 with nothing stored: a priority-1 task whose work
rejects with a 429 error is added, then (while the loop is already running)
a priority-5 task that succeeds with 7.  The priority-5 task is dispatched
first at t=100000; after it settles the clock advances 5500 ms and the
priority-1 task is dispatched at t=105500 and settles with its own error. -/

def scTask0 : Entry := ⟨0, 1, Except.error err429⟩

def scTask1 : Entry := ⟨1, 5, Except.ok 7⟩

def sc2 : QState :=
  { queue := [scTask1, scTask0], isProcessing := true, lastRequestTime := 0,
    phase := .checking, now := 100000, nextId := 2, activeLoops := 1,
    dispatches := [], settled := [], added := [scTask1, scTask0], store := none }

def sc3 : QState :=
  { queue := [scTask0], isProcessing := true, lastRequestTime := 100000,
    phase := .running scTask1, now := 100000, nextId := 2, activeLoops := 1,
    dispatches := [(1, 100000)], settled := [], added := [scTask1, scTask0],
    store := none }

def sc7 : QState :=
  { queue := [], isProcessing := true, lastRequestTime := 105500,
    phase := .checking, now := 105500, nextId := 2, activeLoops := 1,
    dispatches := [(0, 105500), (1, 100000)],
    settled := [(0, Except.error err429), (1, Except.ok 7)],
    added := [scTask1, scTask0], store := none }

theorem reach_sc2 : Reach (initState (ReadOutcome.value none) 100000) sc2 :=
  Relation.ReflTransGen.head (Step.addIdle _ 1 (Except.error err429) rfl)
    (Relation.ReflTransGen.head (Step.addBusy _ 5 (Except.ok 7) rfl)
      Relation.ReflTransGen.refl)

theorem reach_sc3 : Reach (initState (ReadOutcome.value none) 100000) sc3 :=
  Relation.ReflTransGen.tail reach_sc2
    (Step.dispatchNow sc2 scTask1 [scTask0] false rfl rfl (by decide))

theorem reach_sc7 : Reach (initState (ReadOutcome.value none) 100000) sc7 :=
  Relation.ReflTransGen.tail
    (Relation.ReflTransGen.tail
      (Relation.ReflTransGen.tail
        (Relation.ReflTransGen.tail reach_sc3 (Step.settle sc3 scTask1 rfl))
        (Step.tick _ 5500 (by decide)))
      (Step.dispatchNow _ scTask0 [] false rfl rfl (by decide)))
    (Step.settle _ scTask0 rfl)

theorem queue_pacing_witness :
    List.Chain' (fun a b : Nat × Int => b.2 + minDelay ≤ a.2)
      [((0 : Nat), (105500 : Int)), (1, 100000)] :=
  queue_pacing (ReadOutcome.value none) 100000 sc7 reach_sc7

theorem queue_priority_order_witness :
    QueueOrdered [scTask1, scTask0] :=
  (queue_priority_order (ReadOutcome.value none) 100000 sc2 reach_sc2).1

theorem single_flight_witness :
    (1 : Nat) ≤ 1 ∧ (Phase.running scTask1).flight ≤ 1 ∧
      ([((1 : Nat), (100000 : Int))]).length =
        ([] : List (Nat × Except JsErr Nat)).length + (Phase.running scTask1).flight :=
  (single_flight (ReadOutcome.value none) 100000 sc3 reach_sc3).1

theorem failure_isolation_witness :
    (List.map Prod.fst
      [((0 : Nat), (Except.error err429 : Except JsErr Nat)), (1, Except.ok 7)]).Nodup :=
  (failure_isolation (ReadOutcome.value none) 100000 sc7 reach_sc7).2.1

theorem persistence_resilience_witness :
    initLastRequestTime (ReadOutcome.value (some "not a number")) = 0 ∧
    (updateLastRequestTime 123456 false (some "stale")).1 = 123456 :=
  ⟨persistence_resilience.2.2.1 "not a number" (by decide),
   persistence_resilience.2.2.2.1 123456 false (some "stale")⟩
